import Mathlib

/-!
Verification of the importtools merge-chunking and record-reconciliation
engine (github.com/pbs/importtools).

The development shallowly embeds the Python sources:

* `importtools/importables.py` — the `Importable` record model: natural key,
  content, change listeners, `register` / `_notify`.
* `importtools/datasets.py` — `MemoryDataSet` (a `dict` keyed by the record's
  identity; modelled as an association list with at most one entry per
  identity) and `DiffDataSet` (a wrapper tracking `added` / `removed` /
  `changed` sub-collections).
* `importtools/sync.py` — `FullSync.run` and `AdditiveSync.run`.
* `importtools/__init__.py` (`chunked_loader`) and the duplicated historical
  snapshot `ChunkedLoader.loader` (`importtools/loaders.py`,
  `importtools/sync.py`) — the ordered merge chunkers.

Python mutates records in place and stores object references; the embedding
uses explicit state passing.  The tracker sub-collections of a `DiffDataSet`
hold snapshots of the records at the time they were recorded; all theorems
below only observe tracker entries that are not mutated afterwards, so this
difference from Python's aliasing is not visible in any statement.
-/

namespace Importtools

/-- Status tag of a record.  The status machinery (`make_imported`,
`make_forced`, `is_forced`, the `_status` field) is referenced by
`sync.py` and by the doctests (whose `smap` maps 1 to IMPORTED, 2 to
FORCED, 3 to INVALID) but its definition is not under src; the tri-state
plus an unset fourth state is modelled from the spec (section 3). -/
inductive Status where
  | imported
  | forced
  | invalid
  | unset
  deriving DecidableEq, Repr

/-- A listener registered on a record.  `registerChange` stands for the bound
method `DiffDataSet.register_change` that `DiffDataSet` installs on its
records; `otherListener n` stands for any other callable. -/
inductive Listener where
  | registerChange
  | otherListener (tag : Nat)
  deriving DecidableEq, Repr

/-- An `Importable` (importables.py): an immutable natural key (`ident`),
mutable content (collapsed to one natural number, which is enough for every
claim below), the status tag and the `_listeners` list. -/
structure Record where
  ident : Nat
  content : Nat
  status : Status
  listeners : List Listener
  deriving DecidableEq, Repr

/-- Models `Importable.is_forced` (missing from src/; modelled from the spec
and the sync.py doctests: status 2 is FORCED). -/
def isForced (r : Record) : Bool :=
  r.status == Status.forced

/-- Models `Importable.make_imported` (missing from src/; modelled from the
spec: flipping a record to `Imported` touches only the status). -/
def makeImported (r : Record) : Record :=
  { r with status := Status.imported }

/-- Models `Importable.register` (importables.py lines 314-338): after the
callable check the listener is appended to `self._listeners`
unconditionally (the docstring reads "Same listener can register multiple
times").  All values of the `Listener` type stand for callables, so the
`ValueError` branch is unreachable in the model. -/
def importableRegister (r : Record) (l : Listener) : Record :=
  { r with listeners := r.listeners ++ [l] }

/-- Models `Importable._notify` (importables.py lines 354-357): every entry
of `self._listeners` is called once, so a listener `l` is invoked
`count l` times per notification. -/
def notifyCalls (r : Record) (l : Listener) : Nat :=
  r.listeners.count l

/-- Modelled from the spec: `Importable.register_listener` is called by
`DiffDataSet` (datasets.py lines 301 and 333) but is not defined anywhere
under `src/`.  Following the spec (section 4.1: registration is "idempotent
for the same listener"; section 4.3: the change listener is
"automatically-installed") it registers the `register_change` listener once
and returns the record itself. -/
def registerListener (r : Record) : Record :=
  if Listener.registerChange ∈ r.listeners then r
  else { r with listeners := r.listeners ++ [Listener.registerChange] }

/-!
`MemoryDataSet` (datasets.py lines 66-116) is a Python `dict` subclass whose
keys and values are the records, hashed and compared by identity
(`Importable.__hash__` / `__eq__`, importables.py lines 359-363).  Since the
dict holds at most one entry per identity it is modelled as an association
list indexed by the identity.
-/

/-- Dict lookup keyed by record identity: `MemoryDataSet.get`. -/
def mget : List Record → Nat → Option Record
  | [], _ => none
  | x :: xs, i => if x.ident == i then some x else mget xs i

/-- Models `MemoryDataSet.add` (datasets.py lines 115-116):
`self[importable] = importable` replaces the entry with an equal identity or
inserts a new one. -/
def madd : List Record → Record → List Record
  | [], r => [r]
  | x :: xs, r => if x.ident == r.ident then r :: xs else x :: madd xs r

/-- Models `dict.pop` on a `MemoryDataSet`: the entry with the given
identity is removed (there is at most one). -/
def mpop : List Record → Nat → List Record
  | [], _ => []
  | x :: xs, i => if x.ident == i then xs else x :: mpop xs i

/-- Modelled from the spec (sections 4.2 and 7): the historical
`MemoryDataSet` constructor populating the collection from an iterable and
raising `DuplicateIdentity` on two elements with equal identity.  It is
exercised by the repository (`MemoryDataSet(al)` in loaders.py doctests) but
its definition is not under `src/`. -/
inductive ImportErr where
  | duplicateIdentity
  deriving DecidableEq, Repr

/-- Population loop of the spec-modelled constructor: each element is added
in turn; an element whose identity is already present raises
`DuplicateIdentity` (spec: "raises DuplicateIdentity if two iterable
elements share an identity"). -/
def memPopulate (acc : List Record) : List Record → Except ImportErr (List Record)
  | [] => Except.ok acc
  | r :: rs =>
    if (mget acc r.ident).isSome then Except.error ImportErr.duplicateIdentity
    else memPopulate (madd acc r) rs

/-- Modelled from the spec: construction of a `MemoryDataSet` from an
iterable. -/
def memFromIterable (l : List Record) : Except ImportErr (List Record) :=
  memPopulate [] l

/-- The state of a `DiffDataSet` (datasets.py lines 119-374): the wrapped
dataset plus the three tracker sub-collections, each a `MemoryDataSet`. -/
structure DiffState where
  wrapped : List Record
  added : List Record
  removed : List Record
  changed : List Record
  deriving DecidableEq, Repr

/-- Models `DiffDataSet.__init__` (datasets.py lines 292-297): wrap an
existing dataset with empty trackers. -/
def freshDiff (w : List Record) : DiffState :=
  ⟨w, [], [], []⟩

/-- Models `DiffDataSet.get` (datasets.py lines 329-333): look the record up
in the wrapped dataset, return the default (`none`) when absent, otherwise
install the change listener on the record and return it.  In Python the
listener installation mutates the stored object, so the wrapped dataset is
updated as well. -/
def diffGet (s : DiffState) (i : Nat) : Option Record × DiffState :=
  match mget s.wrapped i with
  | none => (none, s)
  | some r =>
    (some (registerListener r), { s with wrapped := madd s.wrapped (registerListener r) })

/-- Models `DiffDataSet.__iter__` (datasets.py lines 299-301): every record
is yielded with the change listener installed (mutating the stored
objects). -/
def diffIterate (s : DiffState) : List Record × DiffState :=
  (s.wrapped.map registerListener, { s with wrapped := s.wrapped.map registerListener })

/-- Models `DiffDataSet.add` (datasets.py lines 335-343): store the record in
the wrapped dataset; if its identity was not previously removed, track it as
added, otherwise drop it from `removed` and track it as changed. -/
def diffAdd (s : DiffState) (r : Record) : DiffState :=
  match mget s.removed r.ident with
  | none =>
    { s with wrapped := madd s.wrapped r, added := madd s.added r }
  | some _ =>
    { s with wrapped := madd s.wrapped r,
             removed := mpop s.removed r.ident,
             changed := madd s.changed r }

/-- Models `DiffDataSet.pop` (datasets.py lines 345-352): if the identity is
a tracked addition, cancel the addition, otherwise track the argument as
removed; in both cases the record is removed from the wrapped dataset.  (In
Python `self._wrapped.pop` raises `KeyError` when the record is absent, but
only after the trackers were already updated; the model keeps the state
total.) -/
def diffPop (s : DiffState) (r : Record) : DiffState :=
  match mget s.added r.ident with
  | none =>
    { s with removed := madd s.removed r, wrapped := mpop s.wrapped r.ident }
  | some _ =>
    { s with added := mpop s.added r.ident, wrapped := mpop s.wrapped r.ident }

/-- Models `DiffDataSet.register_change` (datasets.py lines 354-362): assert
that the record is a member of the wrapped dataset, then track it as
changed.  The `assert` is modelled by the membership guard; every theorem
below invokes it only in states where the assertion holds. -/
def registerChangeOp (s : DiffState) (r : Record) : DiffState :=
  if (mget s.wrapped r.ident).isSome then { s with changed := madd s.changed r } else s

/-- Firing one listener of a record in the context of the owning
`DiffDataSet`: `register_change` is the bound method installed by the
dataset; any other listener does not touch the dataset state. -/
def applyListener (s : DiffState) (r : Record) : Listener → DiffState
  | Listener.registerChange => registerChangeOp s r
  | Listener.otherListener _ => s

/-- Models a change notification (`Importable._notify`) of a record owned by
a `DiffDataSet`: every registered listener is invoked with the record. -/
def notifyRecord (s : DiffState) (r : Record) : DiffState :=
  r.listeners.foldl (fun st l => applyListener st r l) s

/-- One mutation of a `DiffDataSet` through its public interface. -/
inductive DiffOp where
  | addOp (r : Record)
  | popOp (r : Record)
  deriving DecidableEq, Repr

/-- Apply one `add` / `pop` operation. -/
def applyOp (s : DiffState) : DiffOp → DiffState
  | DiffOp.addOp r => diffAdd s r
  | DiffOp.popOp r => diffPop s r

/-- Run a sequence of `add` / `pop` operations on a freshly wrapped
dataset. -/
def runOps (w : List Record) (ops : List DiffOp) : DiffState :=
  ops.foldl applyOp (freshDiff w)

/-!
The reconciliation strategies of sync.py.  `source.get(existing)` on the
source `MemoryDataSet` looks records up by identity.
-/

/-- Source lookup by identity (`source.get`). -/
def sget (src : List Record) (i : Nat) : Option Record :=
  src.find? (fun x => x.ident == i)

/-- Models the shared per-entry body of the additive loop (sync.py lines
107-112 and, duplicated verbatim, lines 221-226) against a `MemoryDataSet`
destination, as in the `FullSync` doctests: a source entry absent from the
destination is added; a present entry whose destination copy is forced is
flipped to imported (`existing.make_imported()` mutates the stored record);
otherwise nothing happens. -/
def additiveStep (dest : List Record) (entry : Record) : List Record :=
  match mget dest entry.ident with
  | none => madd dest entry
  | some existing => if isForced existing then madd dest (makeImported existing) else dest

/-- Models `FullSync.run` (sync.py lines 106-121): the additive loop, then
every destination record that is absent from the source and not forced is
collected in `to_delete` and popped. -/
def FullSyncRun (source dest : List Record) : List Record :=
  let d1 := source.foldl additiveStep dest
  let toDelete := d1.filter (fun x => (sget source x.ident).isNone && !(isForced x))
  toDelete.foldl (fun d e => mpop d e.ident) d1

/-- Models the body of `AdditiveSync.run` (sync.py lines 220-226) against a
`DiffDataSet` destination: `destination.get` is `DiffDataSet.get` (which
installs the change listener), `destination.add` is `DiffDataSet.add`, and
`existing.make_imported()` mutates the stored record's status. -/
def additiveStepDiff (s : DiffState) (entry : Record) : DiffState :=
  match diffGet s entry.ident with
  | (none, s1) => diffAdd s1 entry
  | (some existing, s1) =>
    if isForced existing then { s1 with wrapped := madd s1.wrapped (makeImported existing) }
    else s1

/-- Models `AdditiveSync.run` (sync.py lines 220-226) with a `DiffDataSet`
destination. -/
def AdditiveSyncRunDiff (source : List Record) (s : DiffState) : DiffState :=
  source.foldl additiveStepDiff s

/-!
The ordered merge chunkers.  `chunked_loader` (importtools/__init__.py lines
103-127) tags stream 1 with `True` and stream 2 with `False` and merges the
tagged streams with `heapq.merge`, which repeatedly yields whichever head
tuple compares smaller.  Tuple comparison orders `(element, tag)` pairs
lexicographically with `False < True`, so on a tie the stream-2 element is
yielded first; the iterator 1 head is taken exactly when its element is
strictly smaller.
-/

/-- Models `heapq.merge(_iter_const(iter1, True), _iter_const(iter2, False))`
as a two-way merge of the tagged streams. -/
def mergeTagged : List Nat → List Nat → List (Nat × Bool)
  | [], bs => bs.map (fun b => (b, false))
  | as, [] => as.map (fun a => (a, true))
  | a :: as, b :: bs =>
    if a < b then (a, true) :: mergeTagged as (b :: bs)
    else (b, false) :: mergeTagged (a :: as) bs
  termination_by l1 l2 => l1.length + l2.length

/-- Split one merged chunk back into its iterator-1 and iterator-2 sides, in
merge order, as the loop bodies of both chunkers do. -/
def splitChunk (c : List (Nat × Bool)) : List Nat × List Nat :=
  ((c.filter (fun p => p.2)).map (fun p => p.1),
   (c.filter (fun p => !p.2)).map (fun p => p.1))

/-- One iteration of the `chunked_loader` while-loop on a non-empty merged
stream `x :: xs`: pull up to `chunk_hint` elements (the `islice`), then keep
pulling while the next element equals the last pulled one (the run
extension); the first component is the yielded merged chunk, the second the
remaining stream (with a non-equal element pushed back by
`itertools.chain`).  Faithful for `hint ≥ 1`; for `hint = 0` the Python
generator raises `NameError` on its first iteration, a case excluded by
every claim. -/
def runSplit (hint : Nat) (x : Nat × Bool) (xs : List (Nat × Bool)) :
    List (Nat × Bool) × List (Nat × Bool) :=
  let chunk := x :: xs.take (hint - 1)
  let rest := xs.drop (hint - 1)
  let lastv := (chunk.getLastD x).1
  (chunk ++ rest.takeWhile (fun p => p.1 == lastv),
   rest.dropWhile (fun p => p.1 == lastv))

/-- The sequence of merged chunks produced by the `chunked_loader` loop
(importtools/__init__.py lines 106-127): the loop ends when the merged
stream is exhausted. -/
def chunkRuns (hint : Nat) : List (Nat × Bool) → List (List (Nat × Bool))
  | [] => []
  | x :: xs => (runSplit hint x xs).1 :: chunkRuns hint (runSplit hint x xs).2
  termination_by l => l.length
  decreasing_by
    simp only [runSplit]
    calc (List.dropWhile _ (xs.drop (hint - 1))).length
        ≤ (xs.drop (hint - 1)).length := (List.dropWhile_sublist _).length_le
      _ ≤ xs.length := (List.drop_sublist _ _).length_le
      _ < (x :: xs).length := by simp

/-- Models `chunked_loader(ordered_iter1, ordered_iter2, chunk_hint)`
(importtools/__init__.py lines 103-127): each merged chunk is split by tag
into the pair `(i1_elemens, i2_elemens)` that the generator yields. -/
def chunkedLoader (A B : List Nat) (hint : Nat) : List (List Nat × List Nat) :=
  (chunkRuns hint (mergeTagged A B)).map splitChunk

/-- One iteration of the `ChunkedLoader.loader` while-loop (loaders.py lines
249-289; duplicated verbatim in sync.py lines 314-354) on a non-empty merged
stream: pull up to `chunk_hint` elements, then call `merged.next()` once —
unlike `chunked_loader`, the single pulled element is appended when it
equals the last chunk element and pushed back otherwise. -/
def runSplit2 (hint : Nat) (x : Nat × Bool) (xs : List (Nat × Bool)) :
    List (Nat × Bool) × List (Nat × Bool) :=
  match xs.drop (hint - 1) with
  | [] => (x :: xs.take (hint - 1), [])
  | y :: ys =>
    if y.1 == ((x :: xs.take (hint - 1)).getLastD x).1 then
      ((x :: xs.take (hint - 1)) ++ [y], ys)
    else (x :: xs.take (hint - 1), y :: ys)

/-- The sequence of merged chunks produced by the `ChunkedLoader.loader`
loop; the loop ends when the merged stream is exhausted. -/
def chunkRuns2 (hint : Nat) : List (Nat × Bool) → List (List (Nat × Bool))
  | [] => []
  | x :: xs => (runSplit2 hint x xs).1 :: chunkRuns2 hint (runSplit2 hint x xs).2
  termination_by l => l.length
  decreasing_by
    have h1 : (runSplit2 hint x xs).2.length ≤ xs.length := by
      cases hd : xs.drop (hint - 1) with
      | nil => simp [runSplit2, hd]
      | cons y ys =>
        have h2 := congrArg List.length hd
        simp only [List.length_drop, List.length_cons] at h2
        by_cases hy : y.1 = ((x :: xs.take (hint - 1)).getLastD x).1
        · simp only [runSplit2, hd]
          rw [if_pos (by simp [hy])]
          show ys.length ≤ xs.length
          omega
        · simp only [runSplit2, hd]
          rw [if_neg (by simpa using hy)]
          show (y :: ys).length ≤ xs.length
          simp only [List.length_cons]
          omega
    simp only [List.length_cons]
    omega

/-- Models `ChunkedLoader.loader` called on two plain ordered sequences with
list accumulators, yielding `(source, destination)` pairs in the order the
elements are added. -/
def chunkedLoader2 (A B : List Nat) (hint : Nat) : List (List Nat × List Nat) :=
  (chunkRuns2 hint (mergeTagged A B)).map splitChunk

/-! Basic facts about the identity-keyed association list operations. -/

theorem mget_ident {m : List Record} {i : Nat} {r : Record} (h : mget m i = some r) :
    r.ident = i := by
  induction m with
  | nil => simp [mget] at h
  | cons x xs ih =>
    simp only [mget] at h
    split at h
    · rename_i hx
      cases h
      simpa using hx
    · exact ih h

theorem mget_mem {m : List Record} {i : Nat} {r : Record} (h : mget m i = some r) : r ∈ m := by
  induction m with
  | nil => simp [mget] at h
  | cons x xs ih =>
    simp only [mget] at h
    split at h
    · cases h
      exact List.mem_cons_self _ _
    · exact List.mem_cons_of_mem _ (ih h)

theorem mget_eq_none_iff {m : List Record} {i : Nat} :
    mget m i = none ↔ ∀ x ∈ m, x.ident ≠ i := by
  induction m with
  | nil => simp [mget]
  | cons x xs ih =>
    simp only [mget]
    split
    · rename_i hx
      simp at hx
      simp [hx]
    · rename_i hx
      simp at hx
      simp [ih, hx]

theorem mget_madd_self (m : List Record) (r : Record) : mget (madd m r) r.ident = some r := by
  induction m with
  | nil => simp [madd, mget]
  | cons x xs ih =>
    simp only [madd]
    split
    · simp [mget]
    · rename_i hx
      simp only [mget]
      rw [if_neg hx]
      exact ih

theorem mget_madd_ne {m : List Record} {r : Record} {i : Nat} (h : r.ident ≠ i) :
    mget (madd m r) i = mget m i := by
  induction m with
  | nil => simp [madd, mget, h]
  | cons x xs ih =>
    simp only [madd]
    split
    · rename_i hx
      simp at hx
      simp only [mget]
      rw [if_neg (by simp [h]), if_neg (by simp [hx, h])]
    · simp only [mget]
      split
      · rfl
      · exact ih

theorem madd_eq_append {m : List Record} {r : Record} (h : mget m r.ident = none) :
    madd m r = m ++ [r] := by
  induction m with
  | nil => simp [madd]
  | cons x xs ih =>
    simp only [mget] at h
    split at h
    · cases h
    · rename_i hx
      simp only [madd]
      rw [if_neg hx]
      simp [ih h]

theorem idents_madd_replace {m : List Record} {r : Record}
    (h : (mget m r.ident).isSome = true) :
    (madd m r).map Record.ident = m.map Record.ident := by
  induction m with
  | nil => simp [mget] at h
  | cons x xs ih =>
    simp only [mget] at h
    simp only [madd]
    split
    · rename_i hx
      simp at hx
      simp [hx]
    · rename_i hx
      rw [if_neg hx] at h
      simp [ih h]

theorem mpop_sublist (m : List Record) (i : Nat) : (mpop m i).Sublist m := by
  induction m with
  | nil => simp [mpop]
  | cons x xs ih =>
    simp only [mpop]
    split
    · exact List.sublist_cons_self _ _
    · exact ih.cons₂ _

theorem mget_mpop_ne {m : List Record} {i j : Nat} (h : i ≠ j) :
    mget (mpop m i) j = mget m j := by
  induction m with
  | nil => simp [mpop]
  | cons x xs ih =>
    simp only [mpop]
    split
    · rename_i hx
      simp at hx
      simp only [mget]
      rw [if_neg (by simp [hx, h])]
    · simp only [mget]
      split
      · rfl
      · exact ih

theorem mget_mpop_self {m : List Record} {i : Nat}
    (hnd : (m.map Record.ident).Nodup) : mget (mpop m i) i = none := by
  induction m with
  | nil => simp [mpop, mget]
  | cons x xs ih =>
    simp only [List.map_cons, List.nodup_cons] at hnd
    simp only [mpop]
    split
    · rename_i hx
      simp at hx
      rw [mget_eq_none_iff]
      intro y hy hyx
      apply hnd.1
      rw [hx, ← hyx]
      exact List.mem_map_of_mem Record.ident hy
    · rename_i hx
      simp only [mget]
      rw [if_neg hx]
      exact ih hnd.2

theorem mem_nodup_mget {m : List Record} {d : Record}
    (hnd : (m.map Record.ident).Nodup) (hd : d ∈ m) : mget m d.ident = some d := by
  induction m with
  | nil => cases hd
  | cons x xs ih =>
    simp only [List.map_cons, List.nodup_cons] at hnd
    rcases List.mem_cons.mp hd with h | h
    · subst h
      simp [mget]
    · simp only [mget]
      split
      · rename_i hx
        simp at hx
        exact absurd (hx ▸ List.mem_map_of_mem Record.ident h) hnd.1
      · exact ih hnd.2 h

theorem nodup_idents_madd {m : List Record} {r : Record}
    (h : (m.map Record.ident).Nodup) : ((madd m r).map Record.ident).Nodup := by
  cases hg : mget m r.ident with
  | some x =>
    rw [idents_madd_replace (by simp [hg])]
    exact h
  | none =>
    rw [madd_eq_append hg]
    simp only [List.map_append, List.map_cons, List.map_nil]
    rw [List.nodup_append]
    refine ⟨h, List.nodup_singleton _, ?_⟩
    intro a ha hb
    simp at hb
    rcases List.mem_map.mp ha with ⟨y, hy, hya⟩
    exact (mget_eq_none_iff.mp hg) y hy (hya.trans hb)

theorem nodup_idents_mpop {m : List Record} {i : Nat}
    (h : (m.map Record.ident).Nodup) : ((mpop m i).map Record.ident).Nodup :=
  h.sublist ((mpop_sublist m i).map Record.ident)

theorem registerListener_ident (r : Record) : (registerListener r).ident = r.ident := by
  unfold registerListener
  split <;> rfl

theorem registerListener_content (r : Record) : (registerListener r).content = r.content := by
  unfold registerListener
  split <;> rfl

theorem registerListener_status (r : Record) : (registerListener r).status = r.status := by
  unfold registerListener
  split <;> rfl

theorem registerChange_mem_registerListener (r : Record) :
    Listener.registerChange ∈ (registerListener r).listeners := by
  unfold registerListener
  split
  · assumption
  · simp

/-! Claim C6 — DiffDataSet.add on a previously removed identity. -/

/-- C6 counterexample: popping the record with identity 0 from a freshly
wrapped DiffDataSet and then adding a record with the same identity leaves
the identity in the `changed` tracker (datasets.py lines 341-343 and the
doctest "removing an original Importable and adding a new one should be
interpreted as a change"), contradicting the claim that the pop-then-add
sequence records no net change for that identity. -/
theorem diff_add_undo_removal_cex :
    mget (diffPop (freshDiff [⟨0, 5, Status.imported, []⟩])
        ⟨0, 5, Status.imported, []⟩).removed 0 = some ⟨0, 5, Status.imported, []⟩ ∧
    mget (diffAdd (diffPop (freshDiff [⟨0, 5, Status.imported, []⟩])
        ⟨0, 5, Status.imported, []⟩) ⟨0, 5, Status.imported, []⟩).changed 0
      = some ⟨0, 5, Status.imported, []⟩ := by
  decide

/-- C6 (amended): for every DiffDataSet state whose `removed` tracker holds
the identity of the record being added, `add` clears the identity from
`removed`, stores the record, leaves `added` untouched, and records the
identity in `changed` (a pop-then-add within one tracking epoch is tracked
as a change, not as no net change). -/
theorem diff_add_undo_removal_marks_changed (s : DiffState) (r x : Record)
    (h : mget s.removed r.ident = some x)
    (hnd : (s.removed.map Record.ident).Nodup) :
    mget (diffAdd s r).removed r.ident = none ∧
    mget (diffAdd s r).changed r.ident = some r ∧
    (diffAdd s r).added = s.added ∧
    mget (diffAdd s r).wrapped r.ident = some r := by
  have hd : diffAdd s r =
      { s with wrapped := madd s.wrapped r, removed := mpop s.removed r.ident,
               changed := madd s.changed r } := by
    simp only [diffAdd, h]
  rw [hd]
  exact ⟨mget_mpop_self hnd, mget_madd_self _ _, rfl, mget_madd_self _ _⟩

/-- C6 witness: the amended statement evaluated on a one-record removed
tracker. -/
theorem diff_add_undo_removal_witness :
    mget (diffAdd ⟨[], [], [⟨0, 5, Status.imported, []⟩], []⟩
        ⟨0, 7, Status.imported, []⟩).removed 0 = none ∧
    mget (diffAdd ⟨[], [], [⟨0, 5, Status.imported, []⟩], []⟩
        ⟨0, 7, Status.imported, []⟩).changed 0 = some ⟨0, 7, Status.imported, []⟩ ∧
    (diffAdd ⟨[], [], [⟨0, 5, Status.imported, []⟩], []⟩
        ⟨0, 7, Status.imported, []⟩).added = [] ∧
    mget (diffAdd ⟨[], [], [⟨0, 5, Status.imported, []⟩], []⟩
        ⟨0, 7, Status.imported, []⟩).wrapped 0 = some ⟨0, 7, Status.imported, []⟩ :=
  diff_add_undo_removal_marks_changed ⟨[], [], [⟨0, 5, Status.imported, []⟩], []⟩
    ⟨0, 7, Status.imported, []⟩ ⟨0, 5, Status.imported, []⟩ (by decide) (by decide)

/-! Claim C7 — the added and removed trackers stay disjoint. -/

theorem diffAdd_tracker_inv {s : DiffState} (r : Record)
    (ha : (s.added.map Record.ident).Nodup) (hr : (s.removed.map Record.ident).Nodup)
    (hd : ∀ i, (mget s.added i).isSome = false ∨ (mget s.removed i).isSome = false) :
    ((diffAdd s r).added.map Record.ident).Nodup ∧
    ((diffAdd s r).removed.map Record.ident).Nodup ∧
    (∀ i, (mget (diffAdd s r).added i).isSome = false ∨
          (mget (diffAdd s r).removed i).isSome = false) := by
  cases hg : mget s.removed r.ident with
  | none =>
    simp only [diffAdd, hg]
    refine ⟨nodup_idents_madd ha, hr, ?_⟩
    intro i
    by_cases hi : r.ident = i
    · right
      rw [← hi, hg]
      rfl
    · rw [mget_madd_ne hi]
      exact hd i
  | some x =>
    simp only [diffAdd, hg]
    refine ⟨ha, nodup_idents_mpop hr, ?_⟩
    intro i
    by_cases hi : r.ident = i
    · right
      rw [← hi, mget_mpop_self hr]
      rfl
    · rw [mget_mpop_ne hi]
      exact hd i

theorem diffPop_tracker_inv {s : DiffState} (r : Record)
    (ha : (s.added.map Record.ident).Nodup) (hr : (s.removed.map Record.ident).Nodup)
    (hd : ∀ i, (mget s.added i).isSome = false ∨ (mget s.removed i).isSome = false) :
    ((diffPop s r).added.map Record.ident).Nodup ∧
    ((diffPop s r).removed.map Record.ident).Nodup ∧
    (∀ i, (mget (diffPop s r).added i).isSome = false ∨
          (mget (diffPop s r).removed i).isSome = false) := by
  cases hg : mget s.added r.ident with
  | none =>
    simp only [diffPop, hg]
    refine ⟨ha, nodup_idents_madd hr, ?_⟩
    intro i
    by_cases hi : r.ident = i
    · left
      rw [← hi, hg]
      rfl
    · rw [mget_madd_ne hi]
      exact hd i
  | some x =>
    simp only [diffPop, hg]
    refine ⟨nodup_idents_mpop ha, hr, ?_⟩
    intro i
    by_cases hi : r.ident = i
    · left
      rw [← hi, mget_mpop_self ha]
      rfl
    · rw [mget_mpop_ne hi]
      exact hd i

theorem runOps_tracker_inv (ops : List DiffOp) :
    ∀ s : DiffState, (s.added.map Record.ident).Nodup →
      (s.removed.map Record.ident).Nodup →
      (∀ i, (mget s.added i).isSome = false ∨ (mget s.removed i).isSome = false) →
      ((ops.foldl applyOp s).added.map Record.ident).Nodup ∧
      ((ops.foldl applyOp s).removed.map Record.ident).Nodup ∧
      (∀ i, (mget (ops.foldl applyOp s).added i).isSome = false ∨
            (mget (ops.foldl applyOp s).removed i).isSome = false) := by
  induction ops with
  | nil =>
    intro s ha hr hd
    exact ⟨ha, hr, hd⟩
  | cons op rest ih =>
    intro s ha hr hd
    simp only [List.foldl_cons]
    cases op with
    | addOp r =>
      obtain ⟨h1, h2, h3⟩ := diffAdd_tracker_inv r ha hr hd
      exact ih _ h1 h2 h3
    | popOp r =>
      obtain ⟨h1, h2, h3⟩ := diffPop_tracker_inv r ha hr hd
      exact ih _ h1 h2 h3

/-- C7: for every freshly wrapped DiffDataSet and every finite sequence of
add and pop operations, no identity is simultaneously a member of the
`added` and the `removed` trackers (datasets.py lines 335-352: each branch
that inserts into one tracker first checked that the identity is absent
from the other, or removes it from the other). -/
theorem diff_added_removed_disjoint (w : List Record) (ops : List DiffOp) (i : Nat) :
    (mget (runOps w ops).added i).isSome = false ∨
    (mget (runOps w ops).removed i).isSome = false :=
  (runOps_tracker_inv ops (freshDiff w) (by simp [freshDiff]) (by simp [freshDiff])
    (fun _ => Or.inl rfl)).2.2 i

/-! Claim C8 — double registration of the same listener. -/

/-- C8 counterexample: registering the same listener twice on a fresh record
(importables.py lines 314-338 append unconditionally; the docstring reads
"Same listener can register multiple times") makes a change notification
invoke the listener twice, not once as the claim states. -/
theorem register_twice_double_notification_cex :
    notifyCalls (importableRegister (importableRegister ⟨0, 0, Status.unset, []⟩
        (Listener.otherListener 7)) (Listener.otherListener 7)) (Listener.otherListener 7) = 2 ∧
    ¬ notifyCalls (importableRegister (importableRegister ⟨0, 0, Status.unset, []⟩
        (Listener.otherListener 7)) (Listener.otherListener 7)) (Listener.otherListener 7) = 1 := by
  decide

/-- C8 (amended): listener registration on a Record is not idempotent: each
`register` call appends the listener to `_listeners` and `_notify` calls
every entry, so registering the same listener twice makes every
notification invoke it two more times than before the two registrations. -/
theorem register_not_idempotent (r : Record) (f : Listener) :
    notifyCalls (importableRegister (importableRegister r f) f) f = notifyCalls r f + 2 := by
  simp [notifyCalls, importableRegister, List.count_append]

/-! Claim C9 — the spec-modelled iterable constructor of MemoryDataSet. -/

theorem memPopulate_ok : ∀ (l acc : List Record),
    ((acc ++ l).map Record.ident).Nodup → memPopulate acc l = Except.ok (acc ++ l) := by
  intro l
  induction l with
  | nil =>
    intro acc h
    simp [memPopulate]
  | cons r rs ih =>
    intro acc h
    have hni : mget acc r.ident = none := by
      rw [mget_eq_none_iff]
      intro y hy
      intro hyr
      rw [List.map_append] at h
      rcases List.nodup_append.mp h with ⟨_, _, hdisj⟩
      have hmem : Record.ident y ∈ acc.map Record.ident := List.mem_map_of_mem _ hy
      rw [hyr] at hmem
      exact hdisj hmem (by simp)
    simp only [memPopulate, hni, Option.isSome_none, Bool.false_eq_true, if_false]
    rw [madd_eq_append hni]
    have h2 : (((acc ++ [r]) ++ rs).map Record.ident).Nodup := by
      rw [List.append_assoc]
      simpa using h
    rw [ih (acc ++ [r]) h2]
    simp

theorem memPopulate_err : ∀ (l acc : List Record),
    (acc.map Record.ident).Nodup → ¬((acc ++ l).map Record.ident).Nodup →
    memPopulate acc l = Except.error ImportErr.duplicateIdentity := by
  intro l
  induction l with
  | nil =>
    intro acc ha h
    rw [List.append_nil] at h
    exact absurd ha h
  | cons r rs ih =>
    intro acc ha h
    cases hg : mget acc r.ident with
    | some x =>
      simp [memPopulate, hg]
    | none =>
      simp only [memPopulate, hg, Option.isSome_none, Bool.false_eq_true, if_false]
      rw [madd_eq_append hg]
      apply ih
      · rw [List.map_append, List.nodup_append]
        refine ⟨ha, by simp, ?_⟩
        intro a hmem hmem2
        simp at hmem2
        rcases List.mem_map.mp hmem with ⟨y, hy, hya⟩
        exact (mget_eq_none_iff.mp hg) y hy (hya.trans hmem2)
      · rw [List.append_assoc]
        simpa using h

/-- C9: constructing a MemoryDataSet from an iterable with two elements of
equal identity raises DuplicateIdentity, and construction from a
duplicate-free iterable succeeds with exactly the elements of the iterable
(spec-modelled constructor, see `memFromIterable`). -/
theorem memory_dataset_from_iterable_spec (l : List Record) :
    ((l.map Record.ident).Nodup → memFromIterable l = Except.ok l) ∧
    (¬ (l.map Record.ident).Nodup →
      memFromIterable l = Except.error ImportErr.duplicateIdentity) := by
  constructor
  · intro h
    have h0 := memPopulate_ok l [] (by simpa using h)
    simpa [memFromIterable] using h0
  · intro h
    have h0 := memPopulate_err l [] (by simp) (by simpa using h)
    simpa [memFromIterable] using h0

/-- C9 witness: the two directions evaluated on concrete two-element
iterables. -/
theorem memory_dataset_from_iterable_witness :
    memFromIterable [⟨0, 1, Status.imported, []⟩, ⟨0, 2, Status.imported, []⟩]
      = Except.error ImportErr.duplicateIdentity ∧
    memFromIterable [⟨0, 1, Status.imported, []⟩, ⟨1, 2, Status.imported, []⟩]
      = Except.ok [⟨0, 1, Status.imported, []⟩, ⟨1, 2, Status.imported, []⟩] :=
  ⟨(memory_dataset_from_iterable_spec _).2 (by decide),
   (memory_dataset_from_iterable_spec _).1 (by decide)⟩

/-! The additive loop of sync.py against a MemoryDataSet destination. -/

theorem additiveStep_slot_ne {dcur : List Record} {e : Record} {i : Nat} (hne : e.ident ≠ i) :
    mget (additiveStep dcur e) i = mget dcur i := by
  cases hg : mget dcur e.ident with
  | none =>
    simp only [additiveStep, hg]
    exact mget_madd_ne hne
  | some ex =>
    simp only [additiveStep, hg]
    split
    · have hne2 : (makeImported ex).ident ≠ i := by
        have hex := mget_ident hg
        simpa [makeImported, hex] using hne
      exact mget_madd_ne hne2
    · rfl

theorem additive_foldl_nonforced : ∀ (src : List Record) (dcur : List Record) {i : Nat}
    {r : Record}, mget dcur i = some r → isForced r = false →
    mget (src.foldl additiveStep dcur) i = some r := by
  intro src
  induction src with
  | nil =>
    intro dcur i r h _
    simpa using h
  | cons e es ih =>
    intro dcur i r h hf
    simp only [List.foldl_cons]
    refine ih _ ?_ hf
    by_cases hei : e.ident = i
    · have hg : mget dcur e.ident = some r := by rw [hei]; exact h
      have hstep : additiveStep dcur e = dcur := by
        simp only [additiveStep, hg]
        rw [if_neg (by simp [hf])]
      rw [hstep]
      exact h
    · rw [additiveStep_slot_ne hei]
      exact h

theorem additive_foldl_nomatch : ∀ (src : List Record) (dcur : List Record) {i : Nat},
    (∀ e ∈ src, e.ident ≠ i) → mget (src.foldl additiveStep dcur) i = mget dcur i := by
  intro src
  induction src with
  | nil =>
    intro dcur i _
    rfl
  | cons e es ih =>
    intro dcur i hno
    simp only [List.foldl_cons]
    rw [ih _ (fun x hx => hno x (List.mem_cons_of_mem _ hx))]
    exact additiveStep_slot_ne (hno e (List.mem_cons_self _ _))

theorem additive_foldl_forced_flip : ∀ (src : List Record) (dcur : List Record) {i : Nat}
    {r : Record}, mget dcur i = some r → isForced r = true → (∃ e ∈ src, e.ident = i) →
    mget (src.foldl additiveStep dcur) i = some (makeImported r) := by
  intro src
  induction src with
  | nil =>
    intro dcur i r _ _ hex
    simp at hex
  | cons e es ih =>
    intro dcur i r h hf hex
    simp only [List.foldl_cons]
    by_cases hei : e.ident = i
    · have hg : mget dcur e.ident = some r := by rw [hei]; exact h
      have hstep : additiveStep dcur e = madd dcur (makeImported r) := by
        simp only [additiveStep, hg]
        rw [if_pos hf]
      rw [hstep]
      have hid : (makeImported r).ident = i := by
        have h0 := mget_ident h
        simpa [makeImported] using h0
      refine additive_foldl_nonforced es _ ?_ ?_
      · rw [← hid]
        exact mget_madd_self _ _
      · rfl
    · rcases hex with ⟨e2, he2, hei2⟩
      rcases List.mem_cons.mp he2 with h1 | h1
      · rw [h1] at hei2
        exact absurd hei2 hei
      · refine ih _ ?_ hf ⟨e2, h1, hei2⟩
        rw [additiveStep_slot_ne hei]
        exact h

theorem additiveStep_idents_nodup {dcur : List Record} (e : Record)
    (h : (dcur.map Record.ident).Nodup) :
    ((additiveStep dcur e).map Record.ident).Nodup := by
  cases hg : mget dcur e.ident with
  | none =>
    simp only [additiveStep, hg]
    exact nodup_idents_madd h
  | some ex =>
    simp only [additiveStep, hg]
    split
    · exact nodup_idents_madd h
    · exact h

theorem additive_foldl_idents_nodup : ∀ (src dcur : List Record),
    (dcur.map Record.ident).Nodup →
    ((src.foldl additiveStep dcur).map Record.ident).Nodup := by
  intro src
  induction src with
  | nil =>
    intro dcur h
    exact h
  | cons e es ih =>
    intro dcur h
    simp only [List.foldl_cons]
    exact ih _ (additiveStep_idents_nodup e h)

/-! The deletion loop of FullSync.run. -/

theorem mget_none_of_sublist {m2 m : List Record} {i : Nat} (hs : m2.Sublist m)
    (h : mget m i = none) : mget m2 i = none := by
  rw [mget_eq_none_iff] at h ⊢
  exact fun x hx => h x (hs.subset hx)

theorem pops_preserve_none : ∀ (L d : List Record) {i : Nat},
    mget d i = none → mget (L.foldl (fun d2 e => mpop d2 e.ident) d) i = none := by
  intro L
  induction L with
  | nil =>
    intro d i h
    exact h
  | cons e es ih =>
    intro d i h
    simp only [List.foldl_cons]
    exact ih _ (mget_none_of_sublist (mpop_sublist _ _) h)

theorem pops_slot_ne : ∀ (L d : List Record) {i : Nat},
    (∀ e ∈ L, e.ident ≠ i) →
    mget (L.foldl (fun d2 e => mpop d2 e.ident) d) i = mget d i := by
  intro L
  induction L with
  | nil =>
    intro d i _
    rfl
  | cons e es ih =>
    intro d i hno
    simp only [List.foldl_cons]
    rw [ih _ (fun x hx => hno x (List.mem_cons_of_mem _ hx))]
    exact mget_mpop_ne (hno e (List.mem_cons_self _ _))

theorem pops_removes_mem : ∀ (L d : List Record) {i : Nat} {e : Record},
    (d.map Record.ident).Nodup → e ∈ L → e.ident = i →
    mget (L.foldl (fun d2 e2 => mpop d2 e2.ident) d) i = none := by
  intro L
  induction L with
  | nil =>
    intro d i e _ h _
    cases h
  | cons f fs ih =>
    intro d i e hnd hmem hei
    simp only [List.foldl_cons]
    rcases List.mem_cons.mp hmem with h1 | h1
    · subst hei
      rw [h1]
      exact pops_preserve_none _ _ (mget_mpop_self hnd)
    · exact ih _ (nodup_idents_mpop hnd) h1 hei

/-! Claim C2 — FullSync.run status policy. -/

/-- C2: after FullSync.run, a destination record absent from the source is
deleted exactly when its status is not Forced (a Forced absent record
survives unchanged), and a Forced record present in the source becomes
Imported (sync.py lines 106-121). -/
theorem full_sync_status_policy (source dest : List Record)
    (hnd : (dest.map Record.ident).Nodup) :
    ∀ d ∈ dest,
      (sget source d.ident = none →
        (d.status = Status.forced → mget (FullSyncRun source dest) d.ident = some d) ∧
        (d.status ≠ Status.forced → mget (FullSyncRun source dest) d.ident = none)) ∧
      ((sget source d.ident).isSome = true → d.status = Status.forced →
        mget (FullSyncRun source dest) d.ident = some (makeImported d)) := by
  intro d hd
  have hslot : mget dest d.ident = some d := mem_nodup_mget hnd hd
  have hnd1 : ((source.foldl additiveStep dest).map Record.ident).Nodup :=
    additive_foldl_idents_nodup source dest hnd
  have hrun : FullSyncRun source dest =
      ((source.foldl additiveStep dest).filter
        (fun x => (sget source x.ident).isNone && !(isForced x))).foldl
        (fun d2 e => mpop d2 e.ident) (source.foldl additiveStep dest) := rfl
  constructor
  · intro habs
    have hnomatch : ∀ e ∈ source, e.ident ≠ d.ident := by
      intro e he hei
      simp only [sget] at habs
      have h0 := List.find?_eq_none.mp habs e he
      simp [hei] at h0
    have hpre : mget (source.foldl additiveStep dest) d.ident = some d := by
      rw [additive_foldl_nomatch source dest hnomatch]
      exact hslot
    constructor
    · intro hforced
      have hnoTouch : ∀ e ∈ (source.foldl additiveStep dest).filter
          (fun x => (sget source x.ident).isNone && !(isForced x)), e.ident ≠ d.ident := by
        intro e he hei
        have hef := List.mem_filter.mp he
        have heq : d = e := by
          have h2 := mem_nodup_mget hnd1 hef.1
          rw [hei] at h2
          rw [hpre] at h2
          injection h2
        have hb := hef.2
        simp only [Bool.and_eq_true, Bool.not_eq_eq_eq_not, Bool.not_true] at hb
        rw [← heq] at hb
        have : isForced d = true := by simp [isForced, hforced]
        rw [this] at hb
        exact Bool.noConfusion hb.2
      rw [hrun, pops_slot_ne _ _ hnoTouch]
      exact hpre
    · intro hnf
      rw [hrun]
      refine pops_removes_mem _ _ hnd1 ?_ rfl
      refine List.mem_filter.mpr ⟨mget_mem hpre, ?_⟩
      have h1 : (sget source d.ident).isNone = true := by simp [habs]
      have h2 : isForced d = false := by simp [isForced, hnf]
      simp [h1, h2]
  · intro hpres hforced
    have hex : ∃ e ∈ source, e.ident = d.ident := by
      simp only [sget] at hpres
      obtain ⟨e, he, hpe⟩ := List.find?_isSome.mp hpres
      exact ⟨e, he, by simpa using hpe⟩
    have hflip : mget (source.foldl additiveStep dest) d.ident = some (makeImported d) :=
      additive_foldl_forced_flip source dest hslot (by simp [isForced, hforced]) hex
    have hnoTouch : ∀ e ∈ (source.foldl additiveStep dest).filter
        (fun x => (sget source x.ident).isNone && !(isForced x)), e.ident ≠ d.ident := by
      intro e he hei
      have hef := List.mem_filter.mp he
      have hb := hef.2
      simp only [Bool.and_eq_true] at hb
      rw [hei] at hb
      have h3 := hb.1
      rw [Option.isNone_iff_eq_none] at h3
      rw [h3] at hpres
      exact Bool.noConfusion hpres
    rw [hrun, pops_slot_ne _ _ hnoTouch]
    exact hflip

/-- C2 witness: the policy evaluated on the doctest scenario of the spec
(destination holds identity 1 Imported and identity 2 Forced; source holds
identity 2 only): identity 1 is deleted, identity 2 becomes Imported; and on
a Forced record absent from the source, which survives unchanged. -/
theorem full_sync_status_policy_witness :
    mget (FullSyncRun [⟨2, 0, Status.imported, []⟩]
      [⟨1, 0, Status.imported, []⟩, ⟨2, 0, Status.forced, []⟩]) 1 = none ∧
    mget (FullSyncRun [⟨2, 0, Status.imported, []⟩]
      [⟨1, 0, Status.imported, []⟩, ⟨2, 0, Status.forced, []⟩]) 2
      = some (makeImported ⟨2, 0, Status.forced, []⟩) ∧
    mget (FullSyncRun [] [⟨7, 3, Status.forced, []⟩]) 7 = some ⟨7, 3, Status.forced, []⟩ := by
  refine ⟨?_, ?_, ?_⟩
  · exact ((full_sync_status_policy [⟨2, 0, Status.imported, []⟩]
      [⟨1, 0, Status.imported, []⟩, ⟨2, 0, Status.forced, []⟩] (by decide)
      ⟨1, 0, Status.imported, []⟩ (by decide)).1 (by decide)).2 (by decide)
  · exact (full_sync_status_policy [⟨2, 0, Status.imported, []⟩]
      [⟨1, 0, Status.imported, []⟩, ⟨2, 0, Status.forced, []⟩] (by decide)
      ⟨2, 0, Status.forced, []⟩ (by decide)).2 (by decide) (by decide)
  · exact ((full_sync_status_policy [] [⟨7, 3, Status.forced, []⟩] (by decide)
      ⟨7, 3, Status.forced, []⟩ (by decide)).1 (by decide)).1 (by decide)

/-! Claim C1 — the additive loop against a DiffDataSet destination. -/

theorem diffGet_none {s : DiffState} {i : Nat} (h : mget s.wrapped i = none) :
    diffGet s i = (none, s) := by
  simp [diffGet, h]

theorem diffGet_some {s : DiffState} {i : Nat} {r : Record} (h : mget s.wrapped i = some r) :
    diffGet s i = (some (registerListener r),
      { s with wrapped := madd s.wrapped (registerListener r) }) := by
  simp [diffGet, h]

theorem additiveStepDiff_inv {s : DiffState} (e : Record) {i : Nat} {r : Record}
    (hrm : s.removed = []) (hch : s.changed = [])
    (hslot : mget s.wrapped i = some r) (hnf : isForced r = false) :
    (additiveStepDiff s e).removed = [] ∧ (additiveStepDiff s e).changed = [] ∧
    ∃ r2, mget (additiveStepDiff s e).wrapped i = some r2 ∧
      r2.content = r.content ∧ r2.status = r.status := by
  by_cases hei : e.ident = i
  · have hg : mget s.wrapped e.ident = some r := by rw [hei]; exact hslot
    have hnf2 : isForced (registerListener r) = false := by
      show ((registerListener r).status == Status.forced) = false
      rw [registerListener_status]
      exact hnf
    simp only [additiveStepDiff, diffGet_some hg]
    rw [if_neg (by simp [hnf2])]
    refine ⟨hrm, hch, registerListener r, ?_, registerListener_content r,
      registerListener_status r⟩
    have hid : (registerListener r).ident = i := by
      rw [registerListener_ident]
      exact mget_ident hslot
    rw [← hid]
    exact mget_madd_self _ _
  · cases hg : mget s.wrapped e.ident with
    | none =>
      simp only [additiveStepDiff, diffGet_none hg]
      have hrm2 : mget s.removed e.ident = none := by rw [hrm]; rfl
      simp only [diffAdd, hrm2]
      refine ⟨hrm, hch, r, ?_, rfl, rfl⟩
      rw [mget_madd_ne hei]
      exact hslot
    | some ex =>
      have hex : ex.ident = e.ident := mget_ident hg
      have h1 : (registerListener ex).ident ≠ i := by
        rw [registerListener_ident, hex]
        exact hei
      simp only [additiveStepDiff, diffGet_some hg]
      split
      · refine ⟨hrm, hch, r, ?_, rfl, rfl⟩
        have h2 : (makeImported (registerListener ex)).ident ≠ i := by
          simpa [makeImported] using h1
        rw [mget_madd_ne h2, mget_madd_ne h1]
        exact hslot
      · refine ⟨hrm, hch, r, ?_, rfl, rfl⟩
        rw [mget_madd_ne h1]
        exact hslot

theorem additive_diff_foldl_inv : ∀ (src : List Record) (s : DiffState) {i : Nat}
    {r : Record}, s.removed = [] → s.changed = [] →
    mget s.wrapped i = some r → isForced r = false →
    (AdditiveSyncRunDiff src s).removed = [] ∧ (AdditiveSyncRunDiff src s).changed = [] ∧
    ∃ r2, mget (AdditiveSyncRunDiff src s).wrapped i = some r2 ∧
      r2.content = r.content ∧ r2.status = r.status := by
  intro src
  induction src with
  | nil =>
    intro s i r h1 h2 h3 _
    exact ⟨h1, h2, r, h3, rfl, rfl⟩
  | cons e es ih =>
    intro s i r h1 h2 h3 h4
    obtain ⟨g1, g2, r2, g3, g4, g5⟩ := additiveStepDiff_inv e h1 h2 h3 h4
    have h4b : isForced r2 = false := by
      show (r2.status == Status.forced) = false
      rw [g5]
      exact h4
    obtain ⟨k1, k2, r3, k3, k4, k5⟩ := ih (additiveStepDiff s e) g1 g2 g3 h4b
    simp only [AdditiveSyncRunDiff, List.foldl_cons] at k1 k2 k3 ⊢
    exact ⟨k1, k2, r3, k3, k4.trans g4, k5.trans g5⟩

/-- C1 counterexample: the destination DiffDataSet wraps a record with
identity 0, content 1, status Imported; the source holds identity 0 with
content 2.  After `AdditiveSync.run` the destination copy still has content
1 — sync.py lines 221-226 never call update/sync for a present non-forced
record — and the `changed` tracker is empty, contradicting the claimed
content update and change notification. -/
theorem additive_sync_update_claim_cex :
    (mget (AdditiveSyncRunDiff [⟨0, 2, Status.imported, []⟩]
        (freshDiff [⟨0, 1, Status.imported, []⟩])).wrapped 0).map Record.content = some 1 ∧
    (AdditiveSyncRunDiff [⟨0, 2, Status.imported, []⟩]
        (freshDiff [⟨0, 1, Status.imported, []⟩])).changed = [] ∧
    ¬ ((mget (AdditiveSyncRunDiff [⟨0, 2, Status.imported, []⟩]
        (freshDiff [⟨0, 1, Status.imported, []⟩])).wrapped 0).map Record.content = some 2) := by
  decide

/-- C1 (amended): for every source record whose identity is present in the
destination with a status other than Forced (in particular Imported or
Invalid), the additive loop (AdditiveSync.run, and the identical additive
phase of FullSync.run) leaves the destination copy untouched: its content
and status are unchanged and the `changed` tracker of a freshly wrapped
DiffDataSet destination stays empty; update/sync is never invoked. -/
theorem additive_sync_nonforced_untouched (src w0 : List Record) (i : Nat) (r : Record)
    (hslot : mget w0 i = some r)
    (_hpres : ∃ e ∈ src, e.ident = i)
    (hnf : r.status ≠ Status.forced) :
    (AdditiveSyncRunDiff src (freshDiff w0)).changed = [] ∧
    ∃ r2, mget (AdditiveSyncRunDiff src (freshDiff w0)).wrapped i = some r2 ∧
      r2.content = r.content ∧ r2.status = r.status := by
  have hb : isForced r = false := by
    show (r.status == Status.forced) = false
    simpa using hnf
  obtain ⟨_, h2, hr⟩ := additive_diff_foldl_inv src (freshDiff w0) rfl rfl hslot hb
  exact ⟨h2, hr⟩

/-- C1 witness: the amended statement evaluated on the counterexample
scenario (identity 0, destination content 1, source content 2). -/
theorem additive_sync_nonforced_untouched_witness :
    (AdditiveSyncRunDiff [⟨0, 2, Status.imported, []⟩]
      (freshDiff [⟨0, 1, Status.imported, []⟩])).changed = [] ∧
    ∃ r2, mget (AdditiveSyncRunDiff [⟨0, 2, Status.imported, []⟩]
      (freshDiff [⟨0, 1, Status.imported, []⟩])).wrapped 0 = some r2 ∧
      r2.content = 1 ∧ r2.status = Status.imported :=
  additive_sync_nonforced_untouched [⟨0, 2, Status.imported, []⟩]
    [⟨0, 1, Status.imported, []⟩] 0 ⟨0, 1, Status.imported, []⟩ (by decide)
    ⟨⟨0, 2, Status.imported, []⟩, by decide, rfl⟩ (by decide)

/-! Claim C5 — the automatically installed per-record change listener. -/

theorem applyListener_wrapped (s : DiffState) (r : Record) (l : Listener) :
    (applyListener s r l).wrapped = s.wrapped := by
  cases l with
  | registerChange =>
    simp only [applyListener, registerChangeOp]
    split <;> rfl
  | otherListener _ => rfl

theorem notify_fold_keeps (r : Record) : ∀ (L : List Listener) (s : DiffState),
    mget s.changed r.ident = some r →
    mget ((L.foldl (fun st l => applyListener st r l) s)).changed r.ident = some r := by
  intro L
  induction L with
  | nil =>
    intro s h
    exact h
  | cons l ls ih =>
    intro s h
    simp only [List.foldl_cons]
    apply ih
    cases l with
    | registerChange =>
      simp only [applyListener, registerChangeOp]
      split
      · exact mget_madd_self _ _
      · exact h
    | otherListener _ => exact h

theorem notify_marks (r : Record) : ∀ (L : List Listener) (s : DiffState),
    Listener.registerChange ∈ L → (mget s.wrapped r.ident).isSome = true →
    mget ((L.foldl (fun st l => applyListener st r l) s)).changed r.ident = some r := by
  intro L
  induction L with
  | nil =>
    intro s h _
    cases h
  | cons l ls ih =>
    intro s hmem hsome
    simp only [List.foldl_cons]
    cases l with
    | registerChange =>
      have hstep : applyListener s r Listener.registerChange =
          { s with changed := madd s.changed r } := by
        simp only [applyListener, registerChangeOp]
        rw [if_pos hsome]
      rw [hstep]
      exact notify_fold_keeps r ls _ (mget_madd_self _ _)
    | otherListener n =>
      have hmem2 : Listener.registerChange ∈ ls := by
        rcases List.mem_cons.mp hmem with h1 | h1
        · cases h1
        · exact h1
      exact ih _ hmem2 hsome

/-- C5: every record obtained from a DiffDataSet through `get` or through
iteration has the `register_change` listener installed (datasets.py lines
299-301 and 329-333, with the spec-modelled `register_listener`), the record
is a member of the wrapped dataset when the listener later fires (the
assertion of `register_change`, datasets.py line 361), and firing a change
notification on the record puts it into the `changed` tracker. -/
theorem diff_dataset_listener_marks_changed (s : DiffState) (i : Nat) (r : Record)
    (hw : mget s.wrapped i = some r) :
    (diffGet s i).1 = some (registerListener r) ∧
    Listener.registerChange ∈ (registerListener r).listeners ∧
    mget (diffGet s i).2.wrapped i = some (registerListener r) ∧
    mget (notifyRecord (diffGet s i).2 (registerListener r)).changed i
      = some (registerListener r) ∧
    (∀ q ∈ (diffIterate s).1, Listener.registerChange ∈ q.listeners) := by
  have hid : r.ident = i := mget_ident hw
  have hgid : (registerListener r).ident = i := by
    rw [registerListener_ident]
    exact hid
  refine ⟨?_, registerChange_mem_registerListener r, ?_, ?_, ?_⟩
  · rw [diffGet_some hw]
  · rw [diffGet_some hw]
    show mget (madd s.wrapped (registerListener r)) i = some (registerListener r)
    rw [← hgid]
    exact mget_madd_self _ _
  · rw [diffGet_some hw]
    simp only [notifyRecord]
    rw [← hgid]
    apply notify_marks
    · exact registerChange_mem_registerListener r
    · show (mget (madd s.wrapped (registerListener r)) (registerListener r).ident).isSome = true
      rw [mget_madd_self]
      rfl
  · intro q hq
    simp only [diffIterate] at hq
    rcases List.mem_map.mp hq with ⟨p, _, hpq⟩
    rw [← hpq]
    exact registerChange_mem_registerListener p

/-- C5 witness: the statement evaluated on a one-record freshly wrapped
DiffDataSet. -/
theorem diff_dataset_listener_marks_changed_witness :
    (diffGet (freshDiff [⟨0, 5, Status.imported, []⟩]) 0).1
      = some (registerListener ⟨0, 5, Status.imported, []⟩) ∧
    Listener.registerChange ∈ (registerListener ⟨0, 5, Status.imported, []⟩).listeners ∧
    mget (diffGet (freshDiff [⟨0, 5, Status.imported, []⟩]) 0).2.wrapped 0
      = some (registerListener ⟨0, 5, Status.imported, []⟩) ∧
    mget (notifyRecord (diffGet (freshDiff [⟨0, 5, Status.imported, []⟩]) 0).2
        (registerListener ⟨0, 5, Status.imported, []⟩)).changed 0
      = some (registerListener ⟨0, 5, Status.imported, []⟩) ∧
    (∀ q ∈ (diffIterate (freshDiff [⟨0, 5, Status.imported, []⟩])).1,
      Listener.registerChange ∈ q.listeners) :=
  diff_dataset_listener_marks_changed (freshDiff [⟨0, 5, Status.imported, []⟩]) 0
    ⟨0, 5, Status.imported, []⟩ (by decide)

/-! Claim C3 — the chunked loader partitions its inputs and bounds chunks. -/

theorem runSplit_append (hint : Nat) (x : Nat × Bool) (xs : List (Nat × Bool)) :
    (runSplit hint x xs).1 ++ (runSplit hint x xs).2 = x :: xs := by
  simp only [runSplit]
  rw [List.append_assoc, List.takeWhile_append_dropWhile]
  simp [List.take_append_drop]

theorem chunkRuns_flatten (hint : Nat) (m : List (Nat × Bool)) :
    (chunkRuns hint m).flatten = m := by
  induction m using chunkRuns.induct hint with
  | case1 => simp [chunkRuns]
  | case2 x xs ih =>
    simp only [chunkRuns, List.flatten_cons]
    rw [ih, runSplit_append]

theorem mergeTagged_filter_true (A B : List Nat) :
    (mergeTagged A B).filter (fun p => p.2) = A.map (fun a => (a, true)) := by
  induction A, B using mergeTagged.induct with
  | case1 bs => simp [mergeTagged, List.filter_map, Function.comp_def]
  | case2 => simp [mergeTagged, List.filter_map, Function.comp_def]
  | case3 a as b bs h ih => simp [mergeTagged, h, List.filter_cons, ih]
  | case4 a as b bs h ih => simp [mergeTagged, h, List.filter_cons, ih]

theorem mergeTagged_filter_false (A B : List Nat) :
    (mergeTagged A B).filter (fun p => !p.2) = B.map (fun b => (b, false)) := by
  induction A, B using mergeTagged.induct with
  | case1 bs => simp [mergeTagged, List.filter_map, Function.comp_def]
  | case2 => simp [mergeTagged, List.filter_map, Function.comp_def]
  | case3 a as b bs h ih => simp [mergeTagged, h, List.filter_cons, ih]
  | case4 a as b bs h ih => simp [mergeTagged, h, List.filter_cons, ih]

theorem flatten_filter_map {α β : Type} (p : α → Bool) (f : α → β) :
    ∀ L : List (List α),
    (L.map (fun c => (c.filter p).map f)).flatten = ((L.flatten).filter p).map f := by
  intro L
  induction L with
  | nil => rfl
  | cons c cs ih => simp [List.filter_append, ih]

theorem length_filter_partition {α : Type} (p : α → Bool) :
    ∀ c : List α,
    (c.filter p).length + (c.filter (fun a => !(p a))).length = c.length := by
  intro c
  induction c with
  | nil => rfl
  | cons a t ih =>
    cases hp : p a <;> simp [List.filter_cons, hp] <;> omega

theorem splitChunk_length (c : List (Nat × Bool)) :
    (splitChunk c).1.length + (splitChunk c).2.length = c.length := by
  simp only [splitChunk, List.length_map]
  exact length_filter_partition (fun p => p.2) c

theorem drop_length_sub_one {α : Type} : ∀ (l : List α) (d : α), l ≠ [] →
    l.drop (l.length - 1) = [l.getLastD d] := by
  intro l
  induction l with
  | nil =>
    intro d h
    cases h rfl
  | cons a t ih =>
    intro d _
    cases t with
    | nil => rfl
    | cons b t2 =>
      have h1 : (a :: b :: t2).length - 1 = t2.length + 1 := by simp
      rw [h1, List.drop_succ_cons, List.getLastD_cons]
      have h2 := ih a (by simp)
      have h3 : (b :: t2).length - 1 = t2.length := by simp
      rw [h3] at h2
      exact h2

theorem mem_getLastD {α : Type} : ∀ (l : List α) (d : α), l ≠ [] → l.getLastD d ∈ l := by
  intro l
  induction l with
  | nil =>
    intro d h
    cases h rfl
  | cons a t ih =>
    intro d _
    cases t with
    | nil => simp [List.getLastD_cons]
    | cons b t2 =>
      rw [List.getLastD_cons]
      exact List.mem_cons_of_mem _ (ih a (by simp))

theorem chunkRuns_bound (hint : Nat) (hh : 0 < hint) (m : List (Nat × Bool)) :
    ∀ r ∈ chunkRuns hint m, r.length ≤ hint ∨
      (hint ≤ r.length ∧ ∃ v, ∀ p ∈ r.drop (hint - 1), p.1 = v) := by
  induction m using chunkRuns.induct hint with
  | case1 =>
    intro r hr
    simp [chunkRuns] at hr
  | case2 x xs ih =>
    intro r hr
    simp only [chunkRuns] at hr
    rcases List.mem_cons.mp hr with h1 | h1
    · subst h1
      simp only [runSplit]
      by_cases hlen : hint - 1 ≤ xs.length
      · right
        have hclen : (x :: xs.take (hint - 1)).length = hint := by
          simp [List.length_take, Nat.min_eq_left hlen]
          omega
        constructor
        · rw [List.length_append, hclen]
          omega
        · refine ⟨((x :: xs.take (hint - 1)).getLastD x).1, ?_⟩
          intro p hp
          rw [List.drop_append_eq_append_drop, hclen] at hp
          have hz : hint - 1 - hint = 0 := by omega
          rw [hz, List.drop_zero] at hp
          have hdrop : (x :: xs.take (hint - 1)).drop (hint - 1) =
              [(x :: xs.take (hint - 1)).getLastD x] := by
            have h2 := drop_length_sub_one (x :: xs.take (hint - 1)) x (by simp)
            rw [hclen] at h2
            exact h2
          rw [hdrop] at hp
          rcases List.mem_append.mp hp with h2 | h2
          · rw [List.mem_singleton.mp h2]
          · have h3 := List.mem_takeWhile_imp h2
            simpa using h3
      · left
        have hr0 : xs.drop (hint - 1) = [] := by
          apply List.drop_of_length_le
          omega
        rw [hr0]
        simp only [List.takeWhile_nil, List.append_nil, List.length_cons, List.length_take]
        have h5 : min (hint - 1) xs.length = xs.length := Nat.min_eq_right (by omega)
        rw [h5]
        omega
    · exact ih r h1

/-- C3: for ascending inputs and a positive hint, concatenating the first
components of all yielded pairs of `chunked_loader` gives back the first
input in order, concatenating the second components gives back the second
input, every merged chunk is of length at most `hint` unless the elements
past the bound all belong to one run of equal values (the run extension of
importtools/__init__.py lines 115-124), and every yielded pair is the
tag-split of one merged chunk with matching combined length. -/
theorem chunked_loader_partition (A B : List Nat) (hint : Nat) (hh : 0 < hint)
    (_hA : List.Pairwise (· ≤ ·) A) (_hB : List.Pairwise (· ≤ ·) B) :
    ((chunkedLoader A B hint).map Prod.fst).flatten = A ∧
    ((chunkedLoader A B hint).map Prod.snd).flatten = B ∧
    (∀ r ∈ chunkRuns hint (mergeTagged A B), r.length ≤ hint ∨
      (hint ≤ r.length ∧ ∃ v, ∀ p ∈ r.drop (hint - 1), p.1 = v)) ∧
    (∀ pr ∈ chunkedLoader A B hint, ∃ r ∈ chunkRuns hint (mergeTagged A B),
      pr = splitChunk r ∧ pr.1.length + pr.2.length = r.length) := by
  refine ⟨?_, ?_, chunkRuns_bound hint hh _, ?_⟩
  · have h0 : (chunkedLoader A B hint).map Prod.fst =
        (chunkRuns hint (mergeTagged A B)).map
          (fun c => (c.filter (fun p => p.2)).map (fun p => p.1)) := by
      simp only [chunkedLoader, List.map_map]
      rfl
    rw [h0, flatten_filter_map, chunkRuns_flatten, mergeTagged_filter_true, List.map_map]
    simp [Function.comp_def]
  · have h0 : (chunkedLoader A B hint).map Prod.snd =
        (chunkRuns hint (mergeTagged A B)).map
          (fun c => (c.filter (fun p => !p.2)).map (fun p => p.1)) := by
      simp only [chunkedLoader, List.map_map]
      rfl
    rw [h0, flatten_filter_map, chunkRuns_flatten, mergeTagged_filter_false, List.map_map]
    simp [Function.comp_def]
  · intro pr hpr
    rcases List.mem_map.mp hpr with ⟨r, hr, hre⟩
    refine ⟨r, hr, hre.symm, ?_⟩
    rw [← hre]
    exact splitChunk_length r

/-- C3 witness: the partition statement evaluated on the first doctest of
chunked_loader. -/
theorem chunked_loader_partition_witness :
    ((chunkedLoader [10, 20, 30, 40] [11, 12, 50, 60] 5).map Prod.fst).flatten
      = [10, 20, 30, 40] ∧
    ((chunkedLoader [10, 20, 30, 40] [11, 12, 50, 60] 5).map Prod.snd).flatten
      = [11, 12, 50, 60] ∧
    (∀ r ∈ chunkRuns 5 (mergeTagged [10, 20, 30, 40] [11, 12, 50, 60]),
      r.length ≤ 5 ∨ (5 ≤ r.length ∧ ∃ v, ∀ p ∈ r.drop (5 - 1), p.1 = v)) ∧
    (∀ pr ∈ chunkedLoader [10, 20, 30, 40] [11, 12, 50, 60] 5,
      ∃ r ∈ chunkRuns 5 (mergeTagged [10, 20, 30, 40] [11, 12, 50, 60]),
        pr = splitChunk r ∧ pr.1.length + pr.2.length = r.length) :=
  chunked_loader_partition [10, 20, 30, 40] [11, 12, 50, 60] 5
    (by decide) (by decide) (by decide)

/-! Claim C4 — a run of equal elements is never split across chunk pairs. -/

theorem mergeTagged_mem_val {A B : List Nat} {q : Nat × Bool} (h : q ∈ mergeTagged A B) :
    q.1 ∈ A ∨ q.1 ∈ B := by
  cases hq : q.2 with
  | true =>
    left
    have h2 : q ∈ (mergeTagged A B).filter (fun p => p.2) :=
      List.mem_filter.mpr ⟨h, by simp [hq]⟩
    rw [mergeTagged_filter_true] at h2
    rcases List.mem_map.mp h2 with ⟨a, ha, he⟩
    rw [← he]
    exact ha
  | false =>
    right
    have h2 : q ∈ (mergeTagged A B).filter (fun p => !p.2) :=
      List.mem_filter.mpr ⟨h, by simp [hq]⟩
    rw [mergeTagged_filter_false] at h2
    rcases List.mem_map.mp h2 with ⟨b, hb, he⟩
    rw [← he]
    exact hb

theorem mem_mergeTagged_left {A B : List Nat} {x : Nat} (h : x ∈ A) :
    (x, true) ∈ mergeTagged A B := by
  have h2 : (x, true) ∈ A.map (fun a => (a, true)) := List.mem_map_of_mem _ h
  rw [← mergeTagged_filter_true A B] at h2
  exact (List.mem_filter.mp h2).1

theorem mem_mergeTagged_right {A B : List Nat} {x : Nat} (h : x ∈ B) :
    (x, false) ∈ mergeTagged A B := by
  have h2 : (x, false) ∈ B.map (fun b => (b, false)) := List.mem_map_of_mem _ h
  rw [← mergeTagged_filter_false A B] at h2
  exact (List.mem_filter.mp h2).1

theorem mergeTagged_pairwise : ∀ (A B : List Nat), List.Pairwise (· ≤ ·) A →
    List.Pairwise (· ≤ ·) B →
    List.Pairwise (fun p q : Nat × Bool => p.1 ≤ q.1) (mergeTagged A B) := by
  intro A B
  induction A, B using mergeTagged.induct with
  | case1 bs =>
    intro _ hB
    simp only [mergeTagged]
    exact hB.map _ (fun a b h => h)
  | case2 =>
    intro hA _
    simp only [mergeTagged]
    exact hA.map _ (fun a b h => h)
  | case3 a as b bs h ih =>
    intro hA hB
    simp only [mergeTagged, if_pos h]
    rw [List.pairwise_cons]
    constructor
    · intro q hq
      rcases mergeTagged_mem_val hq with h1 | h1
      · exact (List.pairwise_cons.mp hA).1 _ h1
      · rcases List.mem_cons.mp h1 with h2 | h2
        · rw [h2]
          exact Nat.le_of_lt h
        · exact Nat.le_of_lt (Nat.lt_of_lt_of_le h ((List.pairwise_cons.mp hB).1 _ h2))
    · exact ih (List.pairwise_cons.mp hA).2 hB
  | case4 a as b bs h ih =>
    intro hA hB
    have hba : b ≤ a := Nat.le_of_not_lt h
    simp only [mergeTagged, if_neg h]
    rw [List.pairwise_cons]
    constructor
    · intro q hq
      rcases mergeTagged_mem_val hq with h1 | h1
      · rcases List.mem_cons.mp h1 with h2 | h2
        · rw [h2]
          exact hba
        · exact Nat.le_trans hba ((List.pairwise_cons.mp hA).1 _ h2)
      · exact (List.pairwise_cons.mp hB).1 _ h1
    · exact ih hA (List.pairwise_cons.mp hB).2

theorem pairwise_le_getLastD : ∀ (l : List (Nat × Bool)) (d : Nat × Bool),
    List.Pairwise (fun p q : Nat × Bool => p.1 ≤ q.1) l →
    ∀ p ∈ l, p.1 ≤ (l.getLastD d).1 := by
  intro l
  induction l with
  | nil =>
    intro d _ p hp
    cases hp
  | cons a t ih =>
    intro d hl p hp
    rw [List.getLastD_cons]
    rcases List.mem_cons.mp hp with h1 | h1
    · cases t with
      | nil =>
        rw [h1]
        simp [List.getLastD]
      | cons b t2 =>
        have hmem := mem_getLastD (b :: t2) a (by simp)
        rw [h1]
        exact (List.pairwise_cons.mp hl).1 _ hmem
    · cases t with
      | nil => cases h1
      | cons b t2 => exact ih a (List.pairwise_cons.mp hl).2 p h1

theorem dropWhile_head_not {α : Type} (p : α → Bool) : ∀ (l : List α) (y : α) (ys : List α),
    l.dropWhile p = y :: ys → p y = false := by
  intro l
  induction l with
  | nil =>
    intro y ys h
    cases h
  | cons a t ih =>
    intro y ys h
    rw [List.dropWhile_cons] at h
    split at h
    · exact ih y ys h
    · rename_i hpa
      cases h
      simpa using hpa

theorem runSplit_sep (hint : Nat) (x : Nat × Bool) (xs : List (Nat × Bool))
    (hs : List.Pairwise (fun p q : Nat × Bool => p.1 ≤ q.1) (x :: xs)) :
    ∀ p ∈ (runSplit hint x xs).1, ∀ q ∈ (runSplit hint x xs).2, p.1 < q.1 := by
  intro p hp q hq
  have hsplit : (x :: xs.take (hint - 1)) ++ xs.drop (hint - 1) = x :: xs := by
    simp [List.take_append_drop]
  rw [← hsplit] at hs
  have hcross := (List.pairwise_append.mp hs).2.2
  have hchunk : List.Pairwise (fun p q : Nat × Bool => p.1 ≤ q.1) (x :: xs.take (hint - 1)) :=
    (List.pairwise_append.mp hs).1
  have hrest : List.Pairwise (fun p q : Nat × Bool => p.1 ≤ q.1) (xs.drop (hint - 1)) :=
    (List.pairwise_append.mp hs).2.1
  have hlast_mem : (x :: xs.take (hint - 1)).getLastD x ∈ x :: xs.take (hint - 1) :=
    mem_getLastD _ x (by simp)
  -- every element of the yielded chunk is at most the last chunk value
  have hple : p.1 ≤ ((x :: xs.take (hint - 1)).getLastD x).1 := by
    simp only [runSplit] at hp
    rcases List.mem_append.mp hp with h1 | h1
    · exact pairwise_le_getLastD _ x hchunk p h1
    · have h2 := List.mem_takeWhile_imp h1
      simp only [beq_iff_eq] at h2
      rw [h2]
  -- every element of the remaining stream is strictly above the last chunk value
  have hqgt : ((x :: xs.take (hint - 1)).getLastD x).1 < q.1 := by
    simp only [runSplit] at hq
    cases hdw : (xs.drop (hint - 1)).dropWhile
        (fun p => p.1 == ((x :: xs.take (hint - 1)).getLastD x).1) with
    | nil =>
      rw [hdw] at hq
      cases hq
    | cons y ys =>
      rw [hdw] at hq
      have hyfalse := dropWhile_head_not _ _ y ys hdw
      have hymem : y ∈ xs.drop (hint - 1) :=
        (List.dropWhile_sublist _).subset (by rw [hdw]; exact List.mem_cons_self _ _)
      have hyle : ((x :: xs.take (hint - 1)).getLastD x).1 ≤ y.1 :=
        hcross _ hlast_mem _ hymem
      have hyne : y.1 ≠ ((x :: xs.take (hint - 1)).getLastD x).1 := by
        simpa using hyfalse
      have hylt : ((x :: xs.take (hint - 1)).getLastD x).1 < y.1 :=
        Nat.lt_of_le_of_ne hyle (fun he => hyne he.symm)
      rcases List.mem_cons.mp hq with h1 | h1
      · rw [h1]
        exact hylt
      · have hq2 : List.Pairwise (fun p q : Nat × Bool => p.1 ≤ q.1) (y :: ys) := by
          rw [← hdw]
          exact hrest.sublist (List.dropWhile_sublist _)
        exact Nat.lt_of_lt_of_le hylt ((List.pairwise_cons.mp hq2).1 _ h1)
  exact Nat.lt_of_le_of_lt hple hqgt

theorem chunkRuns_sep (hint : Nat) : ∀ (m : List (Nat × Bool)),
    List.Pairwise (fun p q : Nat × Bool => p.1 ≤ q.1) m →
    List.Pairwise (fun r1 r2 => ∀ p ∈ r1, ∀ q ∈ r2, p.1 < q.1) (chunkRuns hint m) := by
  intro m
  induction m using chunkRuns.induct hint with
  | case1 =>
    intro _
    simp [chunkRuns]
  | case2 x xs ih =>
    intro hs
    have hsub : (runSplit hint x xs).2.Sublist (x :: xs) := by
      have h1 : (runSplit hint x xs).2.Sublist (xs.drop (hint - 1)) := by
        simp only [runSplit]
        exact List.dropWhile_sublist _
      exact h1.trans ((List.drop_sublist _ _).trans (List.sublist_cons_self _ _))
    simp only [chunkRuns]
    rw [List.pairwise_cons]
    constructor
    · intro r2 hr2 p hp q hq
      have hq2 : q ∈ (runSplit hint x xs).2 := by
        have hfl := chunkRuns_flatten hint (runSplit hint x xs).2
        rw [← hfl]
        exact List.mem_flatten.mpr ⟨r2, hr2, hq⟩
      exact runSplit_sep hint x xs hs p hp q hq2
    · exact ih (hs.sublist hsub)

theorem mem_splitChunk_fst {c : List (Nat × Bool)} {x : Nat} :
    x ∈ (splitChunk c).1 ↔ (x, true) ∈ c := by
  simp only [splitChunk, List.mem_map, List.mem_filter]
  constructor
  · rintro ⟨p, ⟨hpc, hp2⟩, hp1⟩
    have hpe : p = (x, true) := by
      obtain ⟨pa, pb⟩ := p
      simp only at hp1 hp2
      simp [hp1, hp2]
    rw [← hpe]
    exact hpc
  · intro h
    exact ⟨(x, true), ⟨h, rfl⟩, rfl⟩

theorem mem_splitChunk_snd {c : List (Nat × Bool)} {x : Nat} :
    x ∈ (splitChunk c).2 ↔ (x, false) ∈ c := by
  simp only [splitChunk, List.mem_map, List.mem_filter]
  constructor
  · rintro ⟨p, ⟨hpc, hp2⟩, hp1⟩
    have hpe : p = (x, false) := by
      obtain ⟨pa, pb⟩ := p
      simp only at hp1 hp2
      simp at hp2
      simp [hp1, hp2]
    rw [← hpe]
    exact hpc
  · intro h
    exact ⟨(x, false), ⟨h, rfl⟩, by simp⟩

theorem chunkedLoader_length (A B : List Nat) (hint : Nat) :
    (chunkedLoader A B hint).length = (chunkRuns hint (mergeTagged A B)).length := by
  simp [chunkedLoader]

theorem chunkedLoader_get (A B : List Nat) (hint : Nat) (j : Nat)
    (hj : j < (chunkedLoader A B hint).length) :
    (chunkedLoader A B hint).get ⟨j, hj⟩ =
      splitChunk ((chunkRuns hint (mergeTagged A B)).get
        ⟨j, by rw [← chunkedLoader_length A B hint]; exact hj⟩) := by
  simp [chunkedLoader, List.get_eq_getElem, List.getElem_map]

/-- C4: if a value occurs in both ascending inputs, the chunked loader
yields both tagged occurrences inside exactly one (chunkA, chunkB) pair: the
run extension (importtools/__init__.py lines 115-124) absorbs every element
equal to the last pulled one, so no pair other than that single one contains
the value on either side. -/
theorem chunked_loader_run_boundary (A B : List Nat) (hint : Nat)
    (_hh : 0 < hint) (hA : List.Pairwise (· ≤ ·) A) (hB : List.Pairwise (· ≤ ·) B)
    (x : Nat) (hxA : x ∈ A) (hxB : x ∈ B) :
    ∃ i : Nat, ∃ hi : i < (chunkedLoader A B hint).length,
      (x ∈ ((chunkedLoader A B hint).get ⟨i, hi⟩).1 ∧
       x ∈ ((chunkedLoader A B hint).get ⟨i, hi⟩).2) ∧
      ∀ j : Nat, ∀ hj : j < (chunkedLoader A B hint).length,
        (x ∈ ((chunkedLoader A B hint).get ⟨j, hj⟩).1 ∨
         x ∈ ((chunkedLoader A B hint).get ⟨j, hj⟩).2) → j = i := by
  have hsorted := mergeTagged_pairwise A B hA hB
  have hsep := chunkRuns_sep hint (mergeTagged A B) hsorted
  have hsepg := List.pairwise_iff_get.mp hsep
  have ht : (x, true) ∈ (chunkRuns hint (mergeTagged A B)).flatten := by
    rw [chunkRuns_flatten]
    exact mem_mergeTagged_left hxA
  have hf : (x, false) ∈ (chunkRuns hint (mergeTagged A B)).flatten := by
    rw [chunkRuns_flatten]
    exact mem_mergeTagged_right hxB
  rcases List.mem_flatten.mp ht with ⟨r1, hr1, hxr1⟩
  rcases List.mem_flatten.mp hf with ⟨r2, hr2, hxr2⟩
  rcases List.mem_iff_get.mp hr1 with ⟨n1, hn1⟩
  rcases List.mem_iff_get.mp hr2 with ⟨n2, hn2⟩
  have hsame : n2 = n1 := by
    rcases Nat.lt_trichotomy (n1 : Nat) (n2 : Nat) with h | h | h
    · have h2 := hsepg n1 n2 h (x, true) (by rw [hn1]; exact hxr1)
        (x, false) (by rw [hn2]; exact hxr2)
      simp at h2
    · exact Fin.ext h.symm
    · have h2 := hsepg n2 n1 h (x, false) (by rw [hn2]; exact hxr2)
        (x, true) (by rw [hn1]; exact hxr1)
      simp at h2
  have hi : (n1 : Nat) < (chunkedLoader A B hint).length := by
    rw [chunkedLoader_length]
    exact n1.2
  refine ⟨n1, hi, ⟨?_, ?_⟩, ?_⟩
  · rw [chunkedLoader_get, mem_splitChunk_fst, Fin.eta, hn1]
    exact hxr1
  · rw [chunkedLoader_get, mem_splitChunk_snd, Fin.eta, hn1]
    have hr12 : r2 = r1 := by rw [← hn2, hsame, hn1]
    rw [← hr12]
    exact hxr2
  · intro j hj hor
    have hjr : j < (chunkRuns hint (mergeTagged A B)).length := by
      rw [← chunkedLoader_length A B hint]
      exact hj
    rw [chunkedLoader_get, mem_splitChunk_fst, mem_splitChunk_snd] at hor
    have hxj : ∃ p ∈ (chunkRuns hint (mergeTagged A B)).get ⟨j, hjr⟩, p.1 = x := by
      rcases hor with h1 | h1
      · exact ⟨(x, true), h1, rfl⟩
      · exact ⟨(x, false), h1, rfl⟩
    rcases hxj with ⟨p, hpj, hpx⟩
    by_contra hne
    rcases Nat.lt_trichotomy j (n1 : Nat) with h | h | h
    · have h2 := hsepg ⟨j, hjr⟩ n1 h p hpj (x, true) (by rw [hn1]; exact hxr1)
      rw [hpx] at h2
      exact absurd h2 (lt_irrefl x)
    · exact hne h
    · have h2 := hsepg n1 ⟨j, hjr⟩ h (x, true) (by rw [hn1]; exact hxr1) p hpj
      rw [hpx] at h2
      exact absurd h2 (lt_irrefl x)

/-- C4 witness: the run-boundary statement evaluated on the doctest where
the value 30 occurs in both inputs. -/
theorem chunked_loader_run_boundary_witness :
    ∃ i : Nat, ∃ hi : i < (chunkedLoader [10, 20, 30, 40] [11, 12, 30, 60] 5).length,
      (30 ∈ ((chunkedLoader [10, 20, 30, 40] [11, 12, 30, 60] 5).get ⟨i, hi⟩).1 ∧
       30 ∈ ((chunkedLoader [10, 20, 30, 40] [11, 12, 30, 60] 5).get ⟨i, hi⟩).2) ∧
      ∀ j : Nat, ∀ hj : j < (chunkedLoader [10, 20, 30, 40] [11, 12, 30, 60] 5).length,
        (30 ∈ ((chunkedLoader [10, 20, 30, 40] [11, 12, 30, 60] 5).get ⟨j, hj⟩).1 ∨
         30 ∈ ((chunkedLoader [10, 20, 30, 40] [11, 12, 30, 60] 5).get ⟨j, hj⟩).2) → j = i :=
  chunked_loader_run_boundary [10, 20, 30, 40] [11, 12, 30, 60] 5
    (by decide) (by decide) (by decide) 30 (by decide) (by decide)

/-! Claim C10 — comparison of the two chunker implementations. -/

theorem runSplit2_nil {hint : Nat} {x : Nat × Bool} {xs : List (Nat × Bool)}
    (h : xs.drop (hint - 1) = []) :
    runSplit2 hint x xs = (x :: xs.take (hint - 1), []) := by
  simp only [runSplit2, h]

theorem runSplit2_ext {hint : Nat} {x y : Nat × Bool} {xs ys : List (Nat × Bool)}
    (h : xs.drop (hint - 1) = y :: ys)
    (hy : y.1 = ((x :: xs.take (hint - 1)).getLastD x).1) :
    runSplit2 hint x xs = ((x :: xs.take (hint - 1)) ++ [y], ys) := by
  simp only [runSplit2, h]
  rw [if_pos (by simp [hy])]

theorem runSplit2_push {hint : Nat} {x y : Nat × Bool} {xs ys : List (Nat × Bool)}
    (h : xs.drop (hint - 1) = y :: ys)
    (hy : ¬ y.1 = ((x :: xs.take (hint - 1)).getLastD x).1) :
    runSplit2 hint x xs = (x :: xs.take (hint - 1), y :: ys) := by
  simp only [runSplit2, h]
  rw [if_neg (by simpa using hy)]

theorem takeWhile_nil_of_head_false {α : Type} (p : α → Bool) (y : α) (ys : List α)
    (h : p y = false) : (y :: ys).takeWhile p = [] := by
  rw [List.takeWhile_cons, if_neg (by simp [h])]

theorem dropWhile_eq_self_of_takeWhile_nil {α : Type} (p : α → Bool) :
    ∀ l : List α, l.takeWhile p = [] → l.dropWhile p = l := by
  intro l
  cases l with
  | nil =>
    intro _
    rfl
  | cons a t =>
    intro h
    rw [List.takeWhile_cons] at h
    split at h
    · cases h
    · rw [List.dropWhile_cons, if_neg (by assumption)]

theorem mergeTagged_count_val (v : Nat) : ∀ (A B : List Nat),
    ((mergeTagged A B).map Prod.fst).count v = A.count v + B.count v := by
  intro A B
  induction A, B using mergeTagged.induct with
  | case1 bs =>
    simp [mergeTagged, List.map_map, Function.comp_def]
  | case2 =>
    simp [mergeTagged, List.map_map, Function.comp_def]
  | case3 a as b bs h ih =>
    simp only [mergeTagged, if_pos h, List.map_cons, List.count_cons, ih]
    split <;> omega
  | case4 a as b bs h ih =>
    simp only [mergeTagged, if_neg h, List.map_cons, List.count_cons, ih]
    split <;> omega

theorem count_le_one_of_pairwise_lt {A : List Nat} (h : List.Pairwise (· < ·) A) (v : Nat) :
    A.count v ≤ 1 := by
  have hnd : A.Nodup := h.imp (fun hlt => Nat.ne_of_lt hlt)
  exact List.nodup_iff_count_le_one.mp hnd v

theorem chunkRuns_eq_chunkRuns2 (hint : Nat) : ∀ (n : Nat) (m : List (Nat × Bool)),
    m.length ≤ n →
    List.Pairwise (fun p q : Nat × Bool => p.1 ≤ q.1) m →
    (∀ v, (m.map Prod.fst).count v ≤ 2) →
    chunkRuns hint m = chunkRuns2 hint m := by
  intro n
  induction n with
  | zero =>
    intro m hlen _ _
    have hm : m = [] := List.eq_nil_of_length_eq_zero (Nat.le_zero.mp hlen)
    rw [hm]
    simp [chunkRuns, chunkRuns2]
  | succ n ih =>
    intro m hlen hs hc
    cases m with
    | nil => simp [chunkRuns, chunkRuns2]
    | cons x xs =>
      have hxs : xs.length ≤ n := by
        simp only [List.length_cons] at hlen
        omega
      cases hrest : xs.drop (hint - 1) with
      | nil =>
        have h1 : runSplit hint x xs = (x :: xs.take (hint - 1), []) := by
          simp only [runSplit, hrest, List.takeWhile_nil, List.dropWhile_nil,
            List.append_nil]
        have e1 : chunkRuns hint (x :: xs)
            = (runSplit hint x xs).1 :: chunkRuns hint (runSplit hint x xs).2 := by
          simp only [chunkRuns]
        have e2 : chunkRuns2 hint (x :: xs)
            = (runSplit2 hint x xs).1 :: chunkRuns2 hint (runSplit2 hint x xs).2 := by
          simp only [chunkRuns2]
        rw [e1, e2]
        simp only [h1, runSplit2_nil hrest]
        simp [chunkRuns, chunkRuns2]
      | cons y ys =>
        have hsubm : List.Sublist (y :: ys) xs := by
          rw [← hrest]
          exact List.drop_sublist _ _
        by_cases hy : y.1 = ((x :: xs.take (hint - 1)).getLastD x).1
        · have htw : ys.takeWhile
              (fun p => p.1 == ((x :: xs.take (hint - 1)).getLastD x).1) = [] := by
            cases hys : ys with
            | nil => rfl
            | cons z zs =>
              by_cases hz : z.1 = ((x :: xs.take (hint - 1)).getLastD x).1
              · exfalso
                have hsplitm : (x :: xs.take (hint - 1)) ++ xs.drop (hint - 1) = x :: xs := by
                  simp [List.take_append_drop]
                have hc2 := hc ((x :: xs.take (hint - 1)).getLastD x).1
                rw [← hsplitm, List.map_append, List.count_append] at hc2
                have hcl : 0 < ((x :: xs.take (hint - 1)).map Prod.fst).count
                    ((x :: xs.take (hint - 1)).getLastD x).1 :=
                  List.count_pos_iff.mpr (List.mem_map.mpr
                    ⟨_, mem_getLastD _ x (by simp), rfl⟩)
                have hcr : 2 ≤ ((xs.drop (hint - 1)).map Prod.fst).count
                    ((x :: xs.take (hint - 1)).getLastD x).1 := by
                  rw [hrest, hys, List.map_cons, List.map_cons, ← hy]
                  have hzy : z.1 = y.1 := by rw [hz, hy]
                  rw [hzy]
                  simp [List.count_cons]
                omega
              · exact takeWhile_nil_of_head_false _ z zs (by simpa using hz)
          have hv1 : runSplit hint x xs = ((x :: xs.take (hint - 1)) ++ [y], ys) := by
            simp only [runSplit, hrest]
            rw [List.takeWhile_cons, if_pos (by simp [hy]), htw,
              List.dropWhile_cons, if_pos (by simp [hy]),
              dropWhile_eq_self_of_takeWhile_nil _ ys htw]
          have hv2 := runSplit2_ext hrest hy
          have e1 : chunkRuns hint (x :: xs)
              = (runSplit hint x xs).1 :: chunkRuns hint (runSplit hint x xs).2 := by
            simp only [chunkRuns]
          have e2 : chunkRuns2 hint (x :: xs)
              = (runSplit2 hint x xs).1 :: chunkRuns2 hint (runSplit2 hint x xs).2 := by
            simp only [chunkRuns2]
          rw [e1, e2]
          simp only [hv1, hv2]
          have hys_len : ys.length ≤ n := by
            have h3 := hsubm.length_le
            simp only [List.length_cons] at h3
            omega
          have hsubys : List.Sublist ys (x :: xs) :=
            ((List.sublist_cons_self y ys).trans hsubm).trans (List.sublist_cons_self x xs)
          rw [ih ys hys_len (hs.sublist hsubys)
            (fun v => le_trans (((hsubys.map Prod.fst).count_le) v) (hc v))]
        · have hv1 : runSplit hint x xs = (x :: xs.take (hint - 1), y :: ys) := by
            simp only [runSplit, hrest]
            rw [takeWhile_nil_of_head_false _ y ys (by simpa using hy), List.append_nil,
              List.dropWhile_cons, if_neg (by simpa using hy)]
          have hv2 := runSplit2_push hrest hy
          have e1 : chunkRuns hint (x :: xs)
              = (runSplit hint x xs).1 :: chunkRuns hint (runSplit hint x xs).2 := by
            simp only [chunkRuns]
          have e2 : chunkRuns2 hint (x :: xs)
              = (runSplit2 hint x xs).1 :: chunkRuns2 hint (runSplit2 hint x xs).2 := by
            simp only [chunkRuns2]
          rw [e1, e2]
          simp only [hv1, hv2]
          have hlen2 : (y :: ys).length ≤ n := le_trans hsubm.length_le hxs
          have hsubyys : List.Sublist (y :: ys) (x :: xs) :=
            hsubm.trans (List.sublist_cons_self x xs)
          rw [ih (y :: ys) hlen2 (hs.sublist hsubyys)
            (fun v => le_trans (((hsubyys.map Prod.fst).count_le) v) (hc v))]

/-- C10 counterexample: on the non-strictly ascending inputs A equal to
three copies of 1 and B equal to one copy of 1 with hint 2, the two chunker
implementations yield different pair sequences: `chunked_loader` extends the
boundary run with every equal element (one pair), while
`ChunkedLoader.loader` absorbs at most one element past the boundary (two
pairs). -/
theorem chunker_equivalence_cex :
    chunkedLoader [1, 1, 1] [1] 2 ≠ chunkedLoader2 [1, 1, 1] [1] 2 ∧
    List.Pairwise (· ≤ ·) [1, 1, 1] ∧ List.Pairwise (· ≤ ·) ([1] : List Nat) ∧ 0 < 2 := by
  have h1 : chunkedLoader [1, 1, 1] [1] 2 = [([1, 1, 1], [1])] := by
    simp [chunkedLoader, mergeTagged, chunkRuns, runSplit, splitChunk]
  have h2 : chunkedLoader2 [1, 1, 1] [1] 2 = [([1, 1], [1]), ([1], [])] := by
    simp [chunkedLoader2, mergeTagged, chunkRuns2, runSplit2, splitChunk]
  refine ⟨?_, by decide, by decide, by decide⟩
  rw [h1, h2]
  decide

/-- C10 (amended): the two chunker implementations agree whenever both
inputs are strictly ascending (then a run of equal merged elements has at
most two members — one per side — so the single-element extension of
`ChunkedLoader.loader` coincides with the run extension of
`chunked_loader`); with merely non-decreasing inputs they can differ, as the
counterexample shows. -/
theorem chunker_equivalence_strict (A B : List Nat) (hint : Nat) (_hh : 0 < hint)
    (hA : List.Pairwise (· < ·) A) (hB : List.Pairwise (· < ·) B) :
    chunkedLoader A B hint = chunkedLoader2 A B hint := by
  unfold chunkedLoader chunkedLoader2
  congr 1
  apply chunkRuns_eq_chunkRuns2 hint (mergeTagged A B).length _ le_rfl
  · exact mergeTagged_pairwise A B (hA.imp le_of_lt) (hB.imp le_of_lt)
  · intro v
    rw [mergeTagged_count_val]
    have h1 := count_le_one_of_pairwise_lt hA v
    have h2 := count_le_one_of_pairwise_lt hB v
    omega

/-- C10 witness: equality of both loaders on the strictly ascending doctest
inputs, including the pair where the run of two 30s straddles the chunk
boundary. -/
theorem chunker_equivalence_strict_witness :
    chunkedLoader [10, 20, 30, 40] [11, 12, 30, 60] 5
      = chunkedLoader2 [10, 20, 30, 40] [11, 12, 30, 60] 5 :=
  chunker_equivalence_strict [10, 20, 30, 40] [11, 12, 30, 60] 5
    (by decide) (by decide) (by decide)

end Importtools
